import Mathlib

/-!
Verification of the golang-version-resolution pipeline of the `elliott`
repository (files `elliottlib/util.py`, `elliottlib/cincinnati.py`,
`elliottlib/cli/get_golang_versions.py`) against its natural-language
specification.

The Python sources are shallowly embedded below:

* free-text version extraction (`get_golang_version_from_build_log`) is
  embedded together with a small backtracking regular-expression engine that
  mirrors Python `re.search` semantics (leftmost match; first alternative
  preferred; greedy quantifiers) for the one fixed pattern the code uses;
* the RPM and container resolution pipelines (`get_golang_rpm_nvrs`,
  `get_golang_container_nvrs`) are embedded as folds over an explicit oracle
  record standing for the external Brew collaborator (build-log fetch,
  build-metadata fetch); a Python exception that the code catches is an
  `Option.none` oracle answer, and an uncaught exception (the unbound
  `build_log` case) makes the whole run return `none`;
* architecture translation (`go_arch_for_brew_arch`, `brew_arch_for_go_arch`)
  returns `Option String`, `none` standing for the raised exception;
* release selection (`sort_semver`, `get_latest_stable_ocp`) is embedded with
  a faithful model of the Python `semver` 2.x library: parsing, precedence
  comparison (build metadata parsed but ignored), and the stable descending
  sort that `sorted(..., key=cmp_to_key(semver.compare), reverse=True)`
  performs.  `semver.compare` raises `ValueError` on input that is not valid
  semver, so the comparator is only meaningful on strings accepted by
  `parseSemVer`; theorems about the sort therefore carry a validity
  hypothesis, and the comparator returns the neutral `0` on the unreachable
  invalid branch.
-/

namespace Elliott

/-! ## Character classes (Python `re` semantics, ASCII range) -/

/-- Python `\s` (ASCII): space, tab, newline, carriage return, vertical tab,
form feed. -/
def isWs (c : Char) : Bool :=
  c == ' ' || c == '\t' || c == '\n' || c == '\r' || c == '\x0b' || c == '\x0c'

/-- Python `[0-9]`. -/
def isDigitCh (c : Char) : Bool :=
  '0'.toNat ≤ c.toNat && c.toNat ≤ '9'.toNat

/-- Python `.` without `re.DOTALL`: any character except newline. -/
def notNL (c : Char) : Bool := c != '\n'

/-- Python `[^\s]`. -/
def nonWs (c : Char) : Bool := !isWs c

/-! ## A small backtracking regex engine

Just enough to embed the single pattern
`(go-toolset-1[^\s]*|golang-bin).*[0-9]+.[0-9]+.[0-9]+[^\s]*` used by
`get_golang_version_from_build_log`, with Python `re.search` semantics. -/

/-- Match a literal: `litMatch l cs = some rest` iff `cs = l ++ rest`. -/
def litMatch : List Char → List Char → Option (List Char)
  | [], cs => some cs
  | _ :: _, [] => none
  | l :: ls, c :: cs => if l = c then litMatch ls cs else none

/-- Regular expressions over character predicates.  `star`/`plus` are greedy
single-class quantifiers, which is all the embedded pattern needs. -/
inductive Re where
  | lit : List Char → Re
  | cls : (Char → Bool) → Re
  | star : (Char → Bool) → Re
  | plus : (Char → Bool) → Re
  | seq : Re → Re → Re
  | alt : Re → Re → Re

/-- Greedy backtracking Kleene star over a character class, in
continuation-passing style: consume as many `p`-characters as possible, then
give back characters one at a time until the continuation succeeds. -/
def starM (p : Char → Bool) : List Char → (List Char → Option (List Char)) →
    Option (List Char)
  | [], k => k []
  | c :: rest, k =>
    if p c then (starM p rest k) <|> k (c :: rest) else k (c :: rest)

/-- Backtracking matcher in continuation-passing style.  `r.m cs k` tries to
match `r` at the start of `cs`; each candidate remainder is offered to the
continuation `k`, preferring the first alternative and the greedy split, as
Python `re` does. -/
def Re.m : Re → List Char → (List Char → Option (List Char)) →
    Option (List Char)
  | .lit l, cs, k =>
    match litMatch l cs with
    | some rest => k rest
    | none => none
  | .cls p, cs, k =>
    match cs with
    | [] => none
    | c :: rest => if p c then k rest else none
  | .star p, cs, k => starM p cs k
  | .plus p, cs, k =>
    match cs with
    | [] => none
    | c :: rest => if p c then starM p rest k else none
  | .seq a b, cs, k => a.m cs (fun rest => b.m rest k)
  | .alt a b, cs, k => (a.m cs k) <|> (b.m cs k)

/-- Python `re.search`: try the pattern at each position from the left; at the
first position where it matches, return the matched span (`m.group(0)`). -/
def reSearch (r : Re) (cs : List Char) : Option (List Char) :=
  match r.m cs some with
  | some rest => some (cs.take (cs.length - rest.length))
  | none =>
    match cs with
    | [] => none
    | _ :: cs2 => reSearch r cs2

/-- The pattern of `get_golang_version_from_build_log`:
`(go-toolset-1[^\s]*|golang-bin).*[0-9]+.[0-9]+.[0-9]+[^\s]*`.
Note the two inner dots are unescaped in the Python source, hence `.cls notNL`
(any non-newline character), not a literal dot. -/
def golangRe : Re :=
  .seq (.alt (.seq (.lit "go-toolset-1".toList) (.star nonWs))
             (.lit "golang-bin".toList))
       (.seq (.star notNL)
         (.seq (.plus isDigitCh)
           (.seq (.cls notNL)
             (.seq (.plus isDigitCh)
               (.seq (.cls notNL)
                 (.seq (.plus isDigitCh) (.star nonWs)))))))

/-! ## Whitespace collapsing (`" ".join(s.split())`) -/

/-- Python `str.split()` with no argument: split on runs of whitespace,
dropping empty fields and leading/trailing whitespace. -/
def wordsOf : List Char → List (List Char)
  | [] => []
  | c :: cs =>
    if isWs c then wordsOf cs
    else
      match cs with
      | [] => [[c]]
      | d :: _ =>
        if isWs d then [c] :: wordsOf cs
        else
          match wordsOf cs with
          | [] => [[c]]
          | w :: ws => (c :: w) :: ws

/-- Python `" ".join(words)`. -/
def joinWords : List (List Char) → List Char
  | [] => []
  | [w] => w
  | w :: ws => w ++ ' ' :: joinWords ws

/-- Decidable statement that a string's characters carry no leading or
trailing whitespace, no whitespace other than a plain space, and no two
adjacent spaces: the shape `" ".join(s.split())` produces. -/
def noTwoSpaces : List Char → Bool
  | c :: d :: rest => !(isWs c && isWs d) && noTwoSpaces (d :: rest)
  | _ => true

def collapsedOK (cs : List Char) : Bool :=
  (match cs.head? with
   | some c => !isWs c
   | none => true) &&
  (match cs.getLast? with
   | some c => !isWs c
   | none => true) &&
  cs.all (fun c => !isWs c || c == ' ') &&
  noTwoSpaces cs

/-- Embedding of `util.get_golang_version_from_build_log`.
`none` models the `AttributeError` that `m.group(0)` raises when
`re.search` finds no match (callers catch it and tally a `go_fail`). -/
def get_golang_version_from_build_log (log : String) : Option String :=
  (reSearch golangRe log.toList).map
    (fun span => String.mk (joinWords (wordsOf span)))

/-! ## Build-unit model and the resolution pipeline (`util.py`) -/

/-- Python substring test `needle in hay`. -/
def hasSub (needle : List Char) : List Char → Bool
  | [] => (litMatch needle ([] : List Char)).isSome
  | c :: rest => (litMatch needle (c :: rest)).isSome || hasSub needle rest

def pyIn (needle hay : String) : Bool := hasSub needle.toList hay.toList

/-- Python tuple membership `name in (n, v, r)`: equality with a component. -/
structure Nvr where
  name : String
  version : String
  release : String
deriving DecidableEq

def pyInTuple (s : String) (n : Nvr) : Bool :=
  s == n.name || s == n.version || s == n.release

/-- The `'{}-{}-{}'.format(*nvr)` string form. -/
def nvr_s (n : Nvr) : String :=
  n.name ++ "-" ++ n.version ++ "-" ++ n.release

/-- One entry of `build['extra']['image']['parent_image_builds']`:
`pinfo.get('nvr')` may be absent (`none`). -/
structure ParentInfo where
  nvr : Option String
deriving DecidableEq

/-- One record returned by `brew.get_build_objects`.  `parents = none` models
the `KeyError` path where `build['extra']['image']['parent_image_builds']` is
missing; the list preserves the dict's insertion/iteration order. -/
structure BuildObj where
  name : String
  parents : Option (List (String × ParentInfo))
deriving DecidableEq

/-- The external Brew collaborator, as consumed by the pipeline.  A `none`
log answer models the `BrewBuildException` the code catches. -/
structure BrewOracle where
  buildObjects : List Nvr → List BuildObj
  archLog : Nvr → Option String
  rootLog : Nvr → Option String

/-- Per-unit result accumulator: the printed `(label, version)` success lines
plus the two failure counters the functions return. -/
structure RunCounts where
  results : List (String × String)
  brew_fail : Nat
  go_fail : Nat
deriving DecidableEq

/-- The per-unit tallying step shared by the RPM path and (for its
success/failure bookkeeping) the container fallback path: a failed log fetch
is a `brew_fail`, a fetched log with no extractable version is a `go_fail`,
and an extracted version is recorded as a result line. -/
def tally_unit (st : RunCounts) (label : String) (log : Option String) :
    RunCounts :=
  match log with
  | none => { st with brew_fail := st.brew_fail + 1 }
  | some text =>
    match get_golang_version_from_build_log text with
    | none => { st with go_fail := st.go_fail + 1 }
    | some v => { st with results := st.results ++ [(label, v)] }

/-- Embedding of `util.get_golang_rpm_nvrs`. -/
def get_golang_rpm_nvrs (oracle : BrewOracle) (nvrs : List Nvr) : RunCounts :=
  nvrs.foldl (fun st n => tally_unit st (nvr_s n) (oracle.rootLog n)) ⟨[], 0, 0⟩

/-- The scan `for p, pinfo in parents.items(): if 'builder' in p:
golang_version = pinfo.get('nvr')` — each later builder-keyed entry
overwrites the value taken from earlier ones. -/
def scan_parents (ps : List (String × ParentInfo)) : Option String :=
  ps.foldl (fun acc e => if pyIn "builder" e.1 then e.2.nvr else acc) none

/-- Python truthiness of the scanned value: `None` and `''` are falsy. -/
def pyTruthy : Option String → Bool
  | none => false
  | some s => s != ""

/-- Pipeline state for the container path.  `lastLog` models the Python local
variable `build_log`, which survives from one loop iteration to the next and
is only reassigned by a successful fetch. -/
structure ContState where
  results : List (String × String)
  brew_fail : Nat
  go_fail : Nat
  lastLog : Option String
deriving DecidableEq

def ContState.counts (st : ContState) : RunCounts :=
  ⟨st.results, st.brew_fail, st.go_fail⟩

def mkContState (c : RunCounts) (lastLog : Option String) : ContState :=
  ⟨c.results, c.brew_fail, c.go_fail, lastLog⟩

/-- The loop `for n in nvrs: if name in n: build_log =
brew.get_nvr_arch_log(*n)`: every matching nvr is fetched in order, each
success reassigns `build_log`, and the first `BrewBuildException` aborts the
loop (second component `true`). -/
def fallback_fetch (oracle : BrewOracle) (nm : String) :
    List Nvr → Option String → Option String × Bool
  | [], acc => (acc, false)
  | n :: rest, acc =>
    if pyInTuple nm n then
      match oracle.archLog n with
      | none => (acc, true)
      | some l => fallback_fetch oracle nm rest (some l)
    else fallback_fetch oracle nm rest acc

/-- The `elif 'golang-builder' in name` fallback (and the final `else`
extraction-failure branch).  Returns `none` for the uncaught
`UnboundLocalError` that the Python code would raise when no nvr matched and
no earlier iteration ever assigned `build_log`. -/
def container_fallback (oracle : BrewOracle) (nvrs : List Nvr)
    (st : ContState) (build : BuildObj) : Option ContState :=
  if pyIn "golang-builder" build.name then
    match fallback_fetch oracle build.name nvrs st.lastLog with
    | (newLog, true) =>
      some { st with lastLog := newLog, brew_fail := st.brew_fail + 1 }
    | (newLog, false) =>
      match newLog with
      | none => none
      | some text =>
        match get_golang_version_from_build_log text with
        | none => some { st with lastLog := newLog, go_fail := st.go_fail + 1 }
        | some v =>
          some { st with lastLog := newLog,
                         results := st.results ++ [(build.name, v)] }
  else some { st with go_fail := st.go_fail + 1 }

/-- One iteration of the `for build in all_build_objs` loop of
`util.get_golang_container_nvrs`. -/
def container_step (oracle : BrewOracle) (nvrs : List Nvr)
    (st : ContState) (build : BuildObj) : Option ContState :=
  match build.parents with
  | none => some { st with brew_fail := st.brew_fail + 1 }
  | some ps =>
    match scan_parents ps with
    | some v =>
      if v = "" then container_fallback oracle nvrs st build
      else some { st with results := st.results ++ [(build.name, v)] }
    | none => container_fallback oracle nvrs st build

def run_container_builds (oracle : BrewOracle) (nvrs : List Nvr) :
    ContState → List BuildObj → Option ContState
  | st, [] => some st
  | st, b :: bs =>
    match container_step oracle nvrs st b with
    | none => none
    | some st2 => run_container_builds oracle nvrs st2 bs

/-- Embedding of `util.get_golang_container_nvrs`: fetch the build records
for all requested nvrs, then process them in order.  `none` models an
uncaught exception aborting the run. -/
def get_golang_container_nvrs (oracle : BrewOracle) (nvrs : List Nvr) :
    Option ContState :=
  run_container_builds oracle nvrs ⟨[], 0, 0, none⟩ (oracle.buildObjects nvrs)

/-- Totals used by the accounting invariant. -/
def RunCounts.total (c : RunCounts) : Nat :=
  c.results.length + c.brew_fail + c.go_fail

def ContState.total (st : ContState) : Nat :=
  st.results.length + st.brew_fail + st.go_fail

/-! ## Architecture translation (`util.py`) -/

def brew_arches : List String := ["x86_64", "s390x", "ppc64le", "aarch64"]
def brew_arch_suffixes : List String := ["", "-s390x", "-ppc64le", "-aarch64"]
def go_arches : List String := ["amd64", "s390x", "ppc64le", "arm64"]
def go_arch_suffixes : List String := ["", "-s390x", "-ppc64le", "-arm64"]

/-- Python `list.index`. -/
def listIndex (l : List String) (x : String) : Option Nat :=
  l.indexOf? x

/-- Embedding of `util.go_arch_for_brew_arch`; `none` models the raised
`Exception` for an unknown architecture. -/
def go_arch_for_brew_arch (brewArch : String) : Option String :=
  if go_arches.contains brewArch then some brewArch
  else if brew_arches.contains brewArch then
    match listIndex brew_arches brewArch with
    | some i => go_arches.get? i
    | none => none
  else none

/-- Embedding of `util.brew_arch_for_go_arch`. -/
def brew_arch_for_go_arch (goArch : String) : Option String :=
  if brew_arches.contains goArch then some goArch
  else if go_arches.contains goArch then
    match listIndex go_arches goArch with
    | some i => brew_arches.get? i
    | none => none
  else none

/-- Embedding of `util.go_suffix_for_arch`. -/
def go_suffix_for_arch (arch : String) : Option String :=
  match go_arch_for_brew_arch arch with
  | none => none
  | some a =>
    match listIndex go_arches a with
    | some i => go_arch_suffixes.get? i
    | none => none

/-- Embedding of `util.brew_suffix_for_arch`. -/
def brew_suffix_for_arch (arch : String) : Option String :=
  match brew_arch_for_go_arch arch with
  | none => none
  | some a =>
    match listIndex brew_arches a with
    | some i => brew_arch_suffixes.get? i
    | none => none

/-! ## Semantic versions (the Python `semver` 2.x library, as used by
`cincinnati.py`) -/

/-- Split at the first occurrence of `sep`: the part before it, and
(`none` when `sep` does not occur) the part after it. -/
def breakAt (sep : Char) : List Char → List Char × Option (List Char)
  | [] => ([], none)
  | c :: cs =>
    if c = sep then ([], some cs)
    else
      let r := breakAt sep cs
      (c :: r.1, r.2)

/-- Split on every occurrence of `sep` (Python `str.split(sep)`): always at
least one (possibly empty) field. -/
def splitOnChar (sep : Char) : List Char → List (List Char)
  | [] => [[]]
  | c :: cs =>
    if c = sep then [] :: splitOnChar sep cs
    else
      match splitOnChar sep cs with
      | [] => [[c]]
      | w :: ws => (c :: w) :: ws

def digitsToNat (cs : List Char) : Nat :=
  cs.foldl (fun acc c => acc * 10 + (c.toNat - '0'.toNat)) 0

/-- A canonical decimal numeral: nonempty, digits only, no leading zero
(`0|[1-9]\d*` in the semver grammar). -/
def decNat? : List Char → Option Nat
  | [] => none
  | c :: cs =>
    if !(c :: cs).all isDigitCh then none
    else if c = '0' ∧ cs ≠ [] then none
    else some (digitsToNat (c :: cs))

def isAlphaDash (c : Char) : Bool :=
  ('a'.toNat ≤ c.toNat && c.toNat ≤ 'z'.toNat) ||
  ('A'.toNat ≤ c.toNat && c.toNat ≤ 'Z'.toNat) || c == '-'

def isIdChar (c : Char) : Bool := isDigitCh c || isAlphaDash c

/-- A pre-release identifier, already converted the way `semver._nat_cmp`
converts it before comparing: all-digit identifiers become numbers
(the grammar forbids leading zeros there), all others keep their characters
(necessarily at least one). -/
inductive PreId where
  | num : Nat → PreId
  | alpha : Char → List Char → PreId
deriving DecidableEq

def parsePreId (cs : List Char) : Option PreId :=
  match cs with
  | [] => none
  | c :: rest =>
    if !(c :: rest).all isIdChar then none
    else if (c :: rest).all isDigitCh then
      match decNat? (c :: rest) with
      | some n => some (.num n)
      | none => none
    else some (.alpha c rest)

def parsePreIds : List (List Char) → Option (List PreId)
  | [] => some []
  | p :: ps =>
    match parsePreId p, parsePreIds ps with
    | some i, some is => some (i :: is)
    | _, _ => none

def validBuildIds (parts : List (List Char)) : Bool :=
  parts.all (fun p => !p.isEmpty && p.all isIdChar)

/-- A parsed semantic version.  `build` (the `+...` metadata) is kept only so
that distinct node strings stay distinguishable; `semver.compare` ignores
it. -/
structure SemVer where
  major : Nat
  minor : Nat
  patch : Nat
  pre : Option (List PreId)
  build : Option (List Char)
deriving DecidableEq

/-- Embedding of `semver.parse` validity and structure
(`^core(-prerelease)?(+build)?$`).  `none` means Python raises
`ValueError`. -/
def parseSemVer (s : String) : Option SemVer :=
  let cs := s.toList
  let b := breakAt '+' cs
  let p := breakAt '-' b.1
  match splitOnChar '.' p.1 with
  | [ma, mi, pa] =>
    match decNat? ma, decNat? mi, decNat? pa with
    | some M, some mnr, some pat =>
      let pre? : Option (Option (List PreId)) :=
        match p.2 with
        | none => some none
        | some pp =>
          match parsePreIds (splitOnChar '.' pp) with
          | some ids => some (some ids)
          | none => none
      match pre? with
      | none => none
      | some pre =>
        match b.2 with
        | none => some ⟨M, mnr, pat, pre, none⟩
        | some bp =>
          if validBuildIds (splitOnChar '.' bp) then
            some ⟨M, mnr, pat, pre, some bp⟩
          else none
    | _, _, _ => none
  | _ => none

def validSemVer (s : String) : Bool := (parseSemVer s).isSome

/-- Three-way comparison of naturals, Python `cmp` style. -/
def cmpI (a b : Nat) : Int :=
  if a < b then -1 else if b < a then 1 else 0

/-- Python `cmp` on strings: lexicographic by code point. -/
def cmpCharsLex : List Char → List Char → Int
  | [], [] => 0
  | [], _ :: _ => -1
  | _ :: _, [] => 1
  | c :: cs, d :: ds =>
    if c.toNat = d.toNat then cmpCharsLex cs ds else cmpI c.toNat d.toNat

/-- `semver._nat_cmp`'s per-identifier comparison (`cmp_prerelease_tag`):
numbers compare numerically and sort below alphanumerics; alphanumerics
compare as strings. -/
def idCmp : PreId → PreId → Int
  | .num a, .num b => cmpI a b
  | .num _, .alpha _ _ => -1
  | .alpha _ _, .num _ => 1
  | .alpha c cs, .alpha d ds => cmpCharsLex (c :: cs) (d :: ds)

/-- `semver._nat_cmp` on the identifier lists: pairwise over the zip, then —
all zipped pairs being equal, hence (identifiers being canonical) literally
equal — Python's raw-string-length tie-break reduces to "the strict prefix is
smaller", which is what the end-of-list cases implement. -/
def preIdsCmp : List PreId → List PreId → Int
  | [], [] => 0
  | [], _ :: _ => -1
  | _ :: _, [] => 1
  | x :: xs, y :: ys => if idCmp x y = 0 then preIdsCmp xs ys else idCmp x y

/-- The pre-release part of `semver._compare_by_keys`: a version without a
pre-release tag outranks the same core with one; two tagged versions compare
by their identifier lists. -/
def preOptCmp : Option (List PreId) → Option (List PreId) → Int
  | none, none => 0
  | none, some _ => 1
  | some _, none => -1
  | some xs, some ys => preIdsCmp xs ys

/-- Embedding of `semver._compare_by_keys`: major, minor, patch numerically
(the first nonzero comparison wins), then the pre-release part. -/
def semverCmp (x y : SemVer) : Int :=
  if cmpI x.major y.major = 0 then
    if cmpI x.minor y.minor = 0 then
      if cmpI x.patch y.patch = 0 then preOptCmp x.pre y.pre
      else cmpI x.patch y.patch
    else cmpI x.minor y.minor
  else cmpI x.major y.major

/-- String-level `semver.compare`.  On a string `parseSemVer` rejects, Python
raises `ValueError`; that branch is unreachable under the validity
hypotheses carried by the theorems below, and returns the neutral `0`. -/
def semver_compare (a b : String) : Int :=
  match parseSemVer a, parseSemVer b with
  | some x, some y => semverCmp x y
  | _, _ => 0

/-- Stable insertion into a descending-sorted list: the new element, which
comes later in the input, goes after the elements it ties with. -/
def insertDescBy (cmp : String → String → Int) (x : String) :
    List String → List String
  | [] => [x]
  | y :: ys => if 0 ≤ cmp x y then x :: y :: ys else y :: insertDescBy cmp x ys

/-- Stable descending sort, the behavior of Python
`sorted(l, key=cmp_to_key(cmp), reverse=True)`. -/
def sortDescBy (cmp : String → String → Int) : List String → List String
  | [] => []
  | x :: xs => insertDescBy cmp x (sortDescBy cmp xs)

/-- Embedding of `cincinnati.sort_semver`. -/
def sort_semver (versions : List String) : List String :=
  sortDescBy semver_compare versions

/-! ## Release selection (`cincinnati.get_latest_stable_ocp`) -/

/-- The inline arch adjustment `arch = 'amd64' if arch == 'x86_64' else
arch`.  Note this is not `go_arch_for_brew_arch`: every other value,
`"aarch64"` included, passes through unchanged. -/
def cincinnati_arch (arch : String) : String :=
  if arch = "x86_64" then "amd64" else arch

/-- The channel string `f'stable-{version}'`. -/
def cincinnati_channel (version : String) : String :=
  "stable-" ++ version

/-- A small concrete Brew oracle used by the witness instances below: build
metadata carries a single `builder` parent, and both log fetches answer with
a log line containing an extractable toolchain version. -/
def demoOracle : BrewOracle :=
  ⟨fun l => l.map (fun n => ⟨n.name, some [("builder", ⟨some "go-build-1"⟩)]⟩),
   fun _ => some "golang-bin 1.2.3",
   fun _ => some "golang-bin 1.2.3"⟩

/-- Embedding of `cincinnati.get_latest_stable_ocp`.  The release-graph fetch
(HTTP GET plus JSON node-list extraction) is the oracle
`fetchReleaseGraph arch channel`, returning the node version strings.
`none` models the `IndexError` that `descending_versions[0]` raises on an
empty node list — the function fails rather than returning a default. -/
def get_latest_stable_ocp (version arch : String)
    (fetchReleaseGraph : String → String → List String) : Option String :=
  let a := cincinnati_arch arch
  let channel := cincinnati_channel version
  let versions := fetchReleaseGraph a channel
  (sort_semver versions).head?

/-! ## Comparator algebra

`semver.compare` implements a total preorder on valid version strings;
the lemmas below establish antisymmetry, transitivity (on the nonnegative
cone) and substitutivity of ties, component by component. -/

theorem cmpI_self (a : Nat) : cmpI a a = 0 := by
  simp [cmpI]

theorem cmpI_neg (a b : Nat) : cmpI b a = -cmpI a b := by
  unfold cmpI
  split_ifs <;> omega

theorem cmpI_nonneg_iff (a b : Nat) : 0 ≤ cmpI a b ↔ b ≤ a := by
  unfold cmpI
  split_ifs <;> (try simp) <;> omega

theorem cmpI_eq_zero_iff (a b : Nat) : cmpI a b = 0 ↔ a = b := by
  unfold cmpI
  split_ifs <;> (try simp) <;> omega

theorem cmpCharsLex_self (s : List Char) : cmpCharsLex s s = 0 := by
  induction s with
  | nil => rfl
  | cons c cs ih => simp [cmpCharsLex, ih]

theorem cmpCharsLex_neg (s t : List Char) :
    cmpCharsLex t s = -cmpCharsLex s t := by
  induction s generalizing t with
  | nil => cases t <;> simp [cmpCharsLex]
  | cons c cs ih =>
    cases t with
    | nil => simp [cmpCharsLex]
    | cons d ds =>
      by_cases h : c.toNat = d.toNat
      · simp [cmpCharsLex, h, ih]
      · have h2 : ¬ d.toNat = c.toNat := fun hh => h hh.symm
        simp only [cmpCharsLex, if_neg h, if_neg h2]
        rw [cmpI_neg]

theorem cmpCharsLex_trans {s t u : List Char}
    (hst : 0 ≤ cmpCharsLex s t) (htu : 0 ≤ cmpCharsLex t u) :
    0 ≤ cmpCharsLex s u := by
  induction s generalizing t u with
  | nil =>
    cases t with
    | nil => cases u with
      | nil => exact hst
      | cons e us => exact htu
    | cons d ds => simp [cmpCharsLex] at hst
  | cons c cs ih =>
    cases t with
    | nil =>
      cases u with
      | nil => simp [cmpCharsLex]
      | cons e us => simp [cmpCharsLex] at htu
    | cons d ds =>
      cases u with
      | nil => simp [cmpCharsLex]
      | cons e us =>
        simp only [cmpCharsLex] at hst htu ⊢
        by_cases hcd : c.toNat = d.toNat
        · by_cases hde : d.toNat = e.toNat
          · rw [if_pos hcd] at hst
            rw [if_pos hde] at htu
            rw [if_pos (hcd.trans hde)]
            exact ih hst htu
          · rw [if_neg hde] at htu
            unfold cmpI at htu ⊢
            rw [if_neg (by omega : ¬ c.toNat = e.toNat)]
            split_ifs <;> omega
        · rw [if_neg hcd] at hst
          unfold cmpI at hst
          by_cases hde : d.toNat = e.toNat
          · rw [if_pos hde] at htu
            unfold cmpI
            rw [if_neg (by omega : ¬ c.toNat = e.toNat)]
            split_ifs <;> omega
          · rw [if_neg hde] at htu
            unfold cmpI at htu ⊢
            rw [if_neg (by omega : ¬ c.toNat = e.toNat)]
            split_ifs <;> omega

theorem cmpCharsLex_subst {s t : List Char} (h : cmpCharsLex s t = 0)
    (u : List Char) : cmpCharsLex s u = cmpCharsLex t u := by
  induction s generalizing t u with
  | nil =>
    cases t with
    | nil => rfl
    | cons d ds => simp [cmpCharsLex] at h
  | cons c cs ih =>
    cases t with
    | nil => simp [cmpCharsLex] at h
    | cons d ds =>
      simp only [cmpCharsLex] at h
      by_cases hcd : c.toNat = d.toNat
      · rw [if_pos hcd] at h
        cases u with
        | nil => rfl
        | cons e us =>
          simp only [cmpCharsLex, hcd]
          by_cases hde : d.toNat = e.toNat
          · rw [if_pos hde, if_pos hde]
            exact ih h us
          · rw [if_neg hde, if_neg hde]
      · rw [if_neg hcd] at h
        unfold cmpI at h
        split_ifs at h <;> omega

theorem idCmp_self (a : PreId) : idCmp a a = 0 := by
  cases a with
  | num n => simp [idCmp, cmpI_self]
  | alpha c cs => simp [idCmp, cmpCharsLex_self]

theorem idCmp_neg (a b : PreId) : idCmp b a = -idCmp a b := by
  cases a with
  | num n =>
    cases b with
    | num m => exact cmpI_neg n m
    | alpha d ds => simp [idCmp]
  | alpha c cs =>
    cases b with
    | num m => simp [idCmp]
    | alpha d ds => exact cmpCharsLex_neg (c :: cs) (d :: ds)

theorem idCmp_trans {a b c : PreId} (hab : 0 ≤ idCmp a b)
    (hbc : 0 ≤ idCmp b c) : 0 ≤ idCmp a c := by
  cases a <;> cases b <;> cases c <;>
    simp_all [idCmp, cmpI_nonneg_iff] <;>
    first
    | omega
    | exact cmpCharsLex_trans hab hbc

theorem idCmp_subst {a b : PreId} (h : idCmp a b = 0) (c : PreId) :
    idCmp a c = idCmp b c := by
  cases a <;> cases b <;> cases c <;>
    simp_all [idCmp, cmpI_eq_zero_iff]
  · exact cmpCharsLex_subst h _

theorem preIdsCmp_self (xs : List PreId) : preIdsCmp xs xs = 0 := by
  induction xs with
  | nil => rfl
  | cons x xs ih => simp [preIdsCmp, idCmp_self, ih]

theorem preIdsCmp_neg (xs ys : List PreId) :
    preIdsCmp ys xs = -preIdsCmp xs ys := by
  induction xs generalizing ys with
  | nil => cases ys <;> simp [preIdsCmp]
  | cons x xs ih =>
    cases ys with
    | nil => simp [preIdsCmp]
    | cons y ys =>
      by_cases h : idCmp x y = 0
      · have h2 : idCmp y x = 0 := by rw [idCmp_neg, h]; rfl
        simp [preIdsCmp, h, h2, ih]
      · have h2 : ¬ idCmp y x = 0 := by
          rw [idCmp_neg]; omega
        simp only [preIdsCmp, if_neg h, if_neg h2]
        rw [idCmp_neg]

theorem preIdsCmp_subst {xs ys : List PreId} (h : preIdsCmp xs ys = 0)
    (zs : List PreId) : preIdsCmp xs zs = preIdsCmp ys zs := by
  induction xs generalizing ys zs with
  | nil =>
    cases ys with
    | nil => rfl
    | cons y ys => simp [preIdsCmp] at h
  | cons x xs ih =>
    cases ys with
    | nil => simp [preIdsCmp] at h
    | cons y ys =>
      simp only [preIdsCmp] at h
      by_cases hxy : idCmp x y = 0
      · rw [if_pos hxy] at h
        cases zs with
        | nil => rfl
        | cons z zs =>
          simp only [preIdsCmp, idCmp_subst hxy z]
          by_cases hyz : idCmp y z = 0
          · rw [if_pos hyz, if_pos hyz]
            exact ih h zs
          · rw [if_neg hyz, if_neg hyz]
      · rw [if_neg hxy] at h
        exact absurd h hxy

theorem preIdsCmp_trans {xs ys zs : List PreId}
    (hxy : 0 ≤ preIdsCmp xs ys) (hyz : 0 ≤ preIdsCmp ys zs) :
    0 ≤ preIdsCmp xs zs := by
  induction xs generalizing ys zs with
  | nil =>
    cases ys with
    | nil => exact hyz
    | cons y ys => simp [preIdsCmp] at hxy
  | cons x xs ih =>
    cases ys with
    | nil =>
      cases zs with
      | nil => simp [preIdsCmp]
      | cons z zs => simp [preIdsCmp] at hyz
    | cons y ys =>
      cases zs with
      | nil => simp [preIdsCmp]
      | cons z zs =>
        simp only [preIdsCmp] at hxy hyz ⊢
        by_cases hxy0 : idCmp x y = 0
        · rw [if_pos hxy0] at hxy
          rw [idCmp_subst hxy0 z]
          by_cases hyz0 : idCmp y z = 0
          · rw [if_pos hyz0] at hyz ⊢
            exact ih hxy hyz
          · rw [if_neg hyz0] at hyz ⊢
            exact hyz
        · rw [if_neg hxy0] at hxy
          by_cases hyz0 : idCmp y z = 0
          · have hzy : idCmp z y = 0 := by rw [idCmp_neg, hyz0]; rfl
            have : idCmp x z = idCmp x y := by
              have h1 := idCmp_subst hzy x
              have h2 := idCmp_neg x z
              have h3 := idCmp_neg x y
              omega
            rw [if_neg (by omega), this]
            exact hxy
          · rw [if_neg hyz0] at hyz
            have hxz : 0 ≤ idCmp x z := idCmp_trans hxy hyz
            by_cases hxz0 : idCmp x z = 0
            · exfalso
              have h1 := idCmp_subst hxz0 y
              have h2 := idCmp_neg y z
              omega
            · rw [if_neg hxz0]
              exact hxz

theorem preOptCmp_self (p : Option (List PreId)) : preOptCmp p p = 0 := by
  cases p with
  | none => rfl
  | some xs => exact preIdsCmp_self xs

theorem preOptCmp_neg (p q : Option (List PreId)) :
    preOptCmp q p = -preOptCmp p q := by
  cases p <;> cases q <;> simp [preOptCmp]
  exact preIdsCmp_neg _ _

theorem preOptCmp_trans {p q r : Option (List PreId)}
    (hpq : 0 ≤ preOptCmp p q) (hqr : 0 ≤ preOptCmp q r) :
    0 ≤ preOptCmp p r := by
  cases p with
  | none => cases r <;> simp [preOptCmp]
  | some xs =>
    cases q with
    | none => simp [preOptCmp] at hpq
    | some ys =>
      cases r with
      | none => simp [preOptCmp] at hqr
      | some zs => exact preIdsCmp_trans hpq hqr

theorem preOptCmp_subst {p q : Option (List PreId)}
    (h : preOptCmp p q = 0) (r : Option (List PreId)) :
    preOptCmp p r = preOptCmp q r := by
  cases p with
  | none =>
    cases q with
    | none => rfl
    | some ys => simp [preOptCmp] at h
  | some xs =>
    cases q with
    | none => simp [preOptCmp] at h
    | some ys =>
      cases r with
      | none => rfl
      | some zs => exact preIdsCmp_subst h zs

theorem semverCmp_neg (x y : SemVer) : semverCmp y x = -semverCmp x y := by
  unfold semverCmp
  have hM := cmpI_neg x.major y.major
  have hm := cmpI_neg x.minor y.minor
  have hp := cmpI_neg x.patch y.patch
  by_cases h1 : cmpI x.major y.major = 0
  · rw [if_pos h1, if_pos (by omega : cmpI y.major x.major = 0)]
    by_cases h2 : cmpI x.minor y.minor = 0
    · rw [if_pos h2, if_pos (by omega : cmpI y.minor x.minor = 0)]
      by_cases h3 : cmpI x.patch y.patch = 0
      · rw [if_pos h3, if_pos (by omega : cmpI y.patch x.patch = 0)]
        exact preOptCmp_neg x.pre y.pre
      · rw [if_neg h3, if_neg (by omega : ¬ cmpI y.patch x.patch = 0)]
        omega
    · rw [if_neg h2, if_neg (by omega : ¬ cmpI y.minor x.minor = 0)]
      omega
  · rw [if_neg h1, if_neg (by omega : ¬ cmpI y.major x.major = 0)]
    omega

theorem semverCmp_nonneg_iff (x y : SemVer) : 0 ≤ semverCmp x y ↔
    (y.major < x.major ∨ (x.major = y.major ∧
      (y.minor < x.minor ∨ (x.minor = y.minor ∧
        (y.patch < x.patch ∨ (x.patch = y.patch ∧
          0 ≤ preOptCmp x.pre y.pre)))))) := by
  unfold semverCmp
  by_cases h1 : cmpI x.major y.major = 0
  · have e1 : x.major = y.major := (cmpI_eq_zero_iff _ _).mp h1
    rw [if_pos h1]
    by_cases h2 : cmpI x.minor y.minor = 0
    · have e2 : x.minor = y.minor := (cmpI_eq_zero_iff _ _).mp h2
      rw [if_pos h2]
      by_cases h3 : cmpI x.patch y.patch = 0
      · have e3 : x.patch = y.patch := (cmpI_eq_zero_iff _ _).mp h3
        rw [if_pos h3]
        simp [e1, e2, e3]
      · have e3 : ¬ x.patch = y.patch :=
          fun h => h3 ((cmpI_eq_zero_iff _ _).mpr h)
        rw [if_neg h3, cmpI_nonneg_iff]
        constructor
        · intro h
          exact Or.inr ⟨e1, Or.inr ⟨e2, Or.inl (by omega)⟩⟩
        · rintro (h | ⟨-, h | ⟨-, h | ⟨h, -⟩⟩⟩) <;> omega
    · have e2 : ¬ x.minor = y.minor :=
        fun h => h2 ((cmpI_eq_zero_iff _ _).mpr h)
      rw [if_neg h2, cmpI_nonneg_iff]
      constructor
      · intro h
        exact Or.inr ⟨e1, Or.inl (by omega)⟩
      · rintro (h | ⟨-, h | ⟨h, -⟩⟩) <;> omega
  · have e1 : ¬ x.major = y.major :=
      fun h => h1 ((cmpI_eq_zero_iff _ _).mpr h)
    rw [if_neg h1, cmpI_nonneg_iff]
    constructor
    · intro h
      exact Or.inl (by omega)
    · rintro (h | ⟨h, -⟩) <;> omega

theorem semverCmp_trans {x y z : SemVer}
    (hxy : 0 ≤ semverCmp x y) (hyz : 0 ≤ semverCmp y z) :
    0 ≤ semverCmp x z := by
  rw [semverCmp_nonneg_iff] at hxy hyz ⊢
  rcases hxy with h | ⟨e1, h | ⟨e2, h | ⟨e3, h⟩⟩⟩ <;>
    rcases hyz with g | ⟨f1, g | ⟨f2, g | ⟨f3, g⟩⟩⟩ <;>
    first
    | exact Or.inl (by omega)
    | exact Or.inr ⟨by omega, Or.inl (by omega)⟩
    | exact Or.inr ⟨by omega, Or.inr ⟨by omega, Or.inl (by omega)⟩⟩
    | exact Or.inr ⟨by omega, Or.inr ⟨by omega, Or.inr ⟨by omega,
        preOptCmp_trans h g⟩⟩⟩

/-! String-level comparator facts.  `semver_compare` models Python
`semver.compare`, which raises on unparsable input; transitivity therefore
holds on valid version strings (the only strings the pipeline ever
compares), while antisymmetry holds outright. -/

theorem semver_compare_neg (a b : String) :
    semver_compare b a = -semver_compare a b := by
  unfold semver_compare
  cases parseSemVer a with
  | none => cases parseSemVer b <;> simp
  | some x =>
    cases parseSemVer b with
    | none => simp
    | some y => exact semverCmp_neg x y

theorem semver_compare_self (a : String) : semver_compare a a = 0 := by
  have := semver_compare_neg a a
  omega

theorem semver_compare_total (a b : String) :
    0 ≤ semver_compare a b ∨ 0 ≤ semver_compare b a := by
  have := semver_compare_neg a b
  omega

theorem semver_compare_trans {a b c : String}
    (hb : validSemVer b = true)
    (hab : 0 ≤ semver_compare a b) (hbc : 0 ≤ semver_compare b c) :
    0 ≤ semver_compare a c := by
  unfold validSemVer at hb
  unfold semver_compare at hab hbc ⊢
  cases hpa : parseSemVer a with
  | none =>
    cases parseSemVer c <;> simp
  | some x =>
    cases hpb : parseSemVer b with
    | none => rw [hpb] at hb; simp at hb
    | some y =>
      cases hpc : parseSemVer c with
      | none => simp
      | some z =>
        rw [hpa, hpb] at hab
        rw [hpb, hpc] at hbc
        exact semverCmp_trans hab hbc

/-! ## Sort lemmas

`sort_semver` is the stable descending sort; its head is an element of the
input of maximal semver precedence. -/

theorem mem_insertDescBy (cmp : String → String → Int) (x a : String)
    (l : List String) : a ∈ insertDescBy cmp x l ↔ a = x ∨ a ∈ l := by
  induction l with
  | nil => simp [insertDescBy]
  | cons y ys ih =>
    by_cases h : 0 ≤ cmp x y
    · simp [insertDescBy, if_pos h]
    · simp [insertDescBy, if_neg h, ih]
      tauto

theorem mem_sortDescBy (cmp : String → String → Int) (a : String)
    (l : List String) : a ∈ sortDescBy cmp l ↔ a ∈ l := by
  induction l with
  | nil => simp [sortDescBy]
  | cons x xs ih =>
    simp [sortDescBy, mem_insertDescBy, ih]

theorem insertDescBy_ne_nil (cmp : String → String → Int) (x : String)
    (l : List String) : insertDescBy cmp x l ≠ [] := by
  cases l with
  | nil => simp [insertDescBy]
  | cons y ys =>
    unfold insertDescBy
    split_ifs <;> simp

theorem pairwise_insertDescBy {x : String} {l : List String}
    (hv : ∀ a ∈ l, validSemVer a = true)
    (hl : l.Pairwise (fun a b => 0 ≤ semver_compare a b)) :
    (insertDescBy semver_compare x l).Pairwise
      (fun a b => 0 ≤ semver_compare a b) := by
  induction l with
  | nil => simp [insertDescBy]
  | cons y ys ih =>
    rw [List.pairwise_cons] at hl
    by_cases h : 0 ≤ semver_compare x y
    · rw [insertDescBy, if_pos h]
      refine List.Pairwise.cons ?_ (List.Pairwise.cons hl.1 hl.2)
      intro z hz
      rcases List.mem_cons.mp hz with rfl | hz2
      · exact h
      · exact semver_compare_trans (hv y (by simp)) h (hl.1 z hz2)
    · rw [insertDescBy, if_neg h]
      refine List.Pairwise.cons ?_ (ih (fun a ha => hv a (by simp [ha])) hl.2)
      intro z hz
      rcases (mem_insertDescBy _ _ _ _).mp hz with rfl | hz2
      · rcases semver_compare_total z y with h2 | h2
        · exact absurd h2 h
        · exact h2
      · exact hl.1 z hz2

theorem pairwise_sortDescBy (l : List String)
    (hv : ∀ a ∈ l, validSemVer a = true) :
    (sortDescBy semver_compare l).Pairwise
      (fun a b => 0 ≤ semver_compare a b) := by
  induction l with
  | nil => simp [sortDescBy]
  | cons x xs ih =>
    rw [sortDescBy]
    refine pairwise_insertDescBy ?_ (ih ?_)
    · intro a ha
      exact hv a (by simp [(mem_sortDescBy _ _ _).mp ha])
    · intro a ha
      exact hv a (by simp [ha])

theorem sortDescBy_head_max {l : List String} {m : String} {t : List String}
    (hv : ∀ a ∈ l, validSemVer a = true)
    (hs : sortDescBy semver_compare l = m :: t) :
    ∀ x ∈ l, 0 ≤ semver_compare m x := by
  have hp := pairwise_sortDescBy l hv
  rw [hs, List.pairwise_cons] at hp
  intro x hx
  have hx2 : x ∈ m :: t := by
    rw [← hs]
    exact (mem_sortDescBy _ _ _).mpr hx
  rcases List.mem_cons.mp hx2 with rfl | hx3
  · have := semver_compare_self x
    omega
  · exact hp.1 x hx3

/-! ## Pipeline accounting lemmas

Every processed unit moves exactly one of the three buckets (result line,
`brew_fail`, `go_fail`) by one. -/

theorem tally_unit_total (st : RunCounts) (label : String)
    (log : Option String) : (tally_unit st label log).total = st.total + 1 := by
  cases log with
  | none => simp [tally_unit, RunCounts.total]; try omega
  | some text =>
    cases he : get_golang_version_from_build_log text with
    | none =>
      simp [tally_unit, he, RunCounts.total]
      try omega
    | some v =>
      simp [tally_unit, he, RunCounts.total]
      try omega

theorem rpm_foldl_total (oracle : BrewOracle) (l : List Nvr) (st : RunCounts) :
    (l.foldl (fun st n => tally_unit st (nvr_s n) (oracle.rootLog n)) st).total
      = st.total + l.length := by
  induction l generalizing st with
  | nil => simp
  | cons n ns ih =>
    rw [List.foldl_cons, ih, tally_unit_total]
    simp
    omega

theorem get_golang_rpm_nvrs_total (oracle : BrewOracle) (nvrs : List Nvr) :
    (get_golang_rpm_nvrs oracle nvrs).total = nvrs.length := by
  unfold get_golang_rpm_nvrs
  rw [rpm_foldl_total]
  simp [RunCounts.total]

theorem container_fallback_total {oracle : BrewOracle} {nvrs : List Nvr}
    {st : ContState} {build : BuildObj} {st2 : ContState}
    (h : container_fallback oracle nvrs st build = some st2) :
    st2.total = st.total + 1 := by
  unfold container_fallback at h
  split_ifs at h with hb
  · split at h
    next newLog heq =>
      simp only [Option.some.injEq] at h
      subst h
      simp [ContState.total]
      try omega
    next newLog heq =>
      split at h
      next => simp at h
      next text heq2 =>
        split at h
        next =>
          simp only [Option.some.injEq] at h
          subst h
          simp [ContState.total]
          try omega
        next v heq3 =>
          simp only [Option.some.injEq] at h
          subst h
          simp [ContState.total]
          omega
  · simp only [Option.some.injEq] at h
    subst h
    simp [ContState.total]
    try omega

theorem container_step_total {oracle : BrewOracle} {nvrs : List Nvr}
    {st : ContState} {build : BuildObj} {st2 : ContState}
    (h : container_step oracle nvrs st build = some st2) :
    st2.total = st.total + 1 := by
  unfold container_step at h
  split at h
  next =>
    simp only [Option.some.injEq] at h
    subst h
    simp [ContState.total]
    try omega
  next ps heq =>
    split at h
    next v heq2 =>
      split_ifs at h with hv
      · exact container_fallback_total h
      · simp only [Option.some.injEq] at h
        subst h
        simp [ContState.total]
        omega
    next heq2 => exact container_fallback_total h

theorem run_container_builds_total {oracle : BrewOracle} {nvrs : List Nvr}
    {bs : List BuildObj} {st res : ContState}
    (h : run_container_builds oracle nvrs st bs = some res) :
    res.total = st.total + bs.length := by
  induction bs generalizing st with
  | nil =>
    unfold run_container_builds at h
    simp only [Option.some.injEq] at h
    subst h
    simp
  | cons b bs ih =>
    unfold run_container_builds at h
    split at h
    next => simp at h
    next st2 heq =>
      rw [ih h, container_step_total heq]
      simp
      omega

/-! ## Parent-image scan lemmas -/

theorem scan_parents_foldl (ps : List (String × ParentInfo))
    (acc : Option String) :
    ps.foldl (fun acc e => if pyIn "builder" e.1 then e.2.nvr else acc) acc =
      (match (ps.filter (fun e => pyIn "builder" e.1)).getLast? with
       | some e => e.2.nvr
       | none => acc) := by
  induction ps generalizing acc with
  | nil => rfl
  | cons p ps ih =>
    rw [List.foldl_cons, List.filter_cons]
    by_cases h : pyIn "builder" p.1
    · rw [if_pos h, if_pos h, ih]
      cases hrest : ps.filter (fun e => pyIn "builder" e.1) with
      | nil => simp
      | cons r rs =>
        rw [List.getLast?_cons_cons]
        cases hlast : (r :: rs).getLast? with
        | some e => rfl
        | none => simp at hlast
    · rw [if_neg h, if_neg h, ih]

theorem scan_parents_eq_last (ps : List (String × ParentInfo)) :
    scan_parents ps =
      (match (ps.filter (fun e => pyIn "builder" e.1)).getLast? with
       | some e => e.2.nvr
       | none => none) := by
  unfold scan_parents
  exact scan_parents_foldl ps none

/-! ## Regex-engine lemmas

`reSearch` fails exactly when no position matches, and a found span is the
one of the leftmost matching position. -/

theorem optOrElse_some {α : Type} {a : Option α} {b : Option α} {x : α}
    (h : (a <|> b) = some x) : a = some x ∨ (a = none ∧ b = some x) := by
  cases a with
  | none => right; exact ⟨rfl, by simpa using h⟩
  | some y => left; simpa using h

theorem litMatch_eq_some {l cs rest : List Char}
    (h : litMatch l cs = some rest) : cs = l ++ rest := by
  induction l generalizing cs with
  | nil =>
    simp only [litMatch, Option.some.injEq] at h
    simp [h]
  | cons x xs ih =>
    cases cs with
    | nil => simp [litMatch] at h
    | cons c cs2 =>
      simp only [litMatch] at h
      split_ifs at h with hx
      · subst hx
        rw [List.cons_append, ih h]
  -- the `if` false branch yields `none = some rest`, closed by `split_ifs`

theorem starM_suffix {p : Char → Bool} {cs : List Char}
    {k : List Char → Option (List Char)} {res : List Char}
    (h : starM p cs k = some res) :
    ∃ rest pre, cs = pre ++ rest ∧ k rest = some res := by
  induction cs with
  | nil =>
    exact ⟨[], [], rfl, h⟩
  | cons c cs2 ih =>
    rw [starM] at h
    split_ifs at h with hp
    · rcases optOrElse_some h with h1 | ⟨-, h2⟩
      · rcases ih h1 with ⟨rest, pre, hpre, hk⟩
        exact ⟨rest, c :: pre, by simp [hpre], hk⟩
      · exact ⟨c :: cs2, [], rfl, h2⟩
    · exact ⟨c :: cs2, [], rfl, h⟩

theorem Re.m_suffix {r : Re} :
    ∀ {cs : List Char} {k : List Char → Option (List Char)}
      {res : List Char}, r.m cs k = some res →
      ∃ rest pre, cs = pre ++ rest ∧ k rest = some res := by
  induction r with
  | lit l =>
    intro cs k res h
    rw [Re.m] at h
    cases hl : litMatch l cs with
    | none => rw [hl] at h; simp at h
    | some rest =>
      rw [hl] at h
      exact ⟨rest, l, litMatch_eq_some hl, h⟩
  | cls p =>
    intro cs k res h
    cases cs with
    | nil => simp [Re.m] at h
    | cons c cs2 =>
      rw [Re.m] at h
      split_ifs at h with hp
      exact ⟨cs2, [c], rfl, h⟩
  | star p =>
    intro cs k res h
    exact starM_suffix h
  | plus p =>
    intro cs k res h
    cases cs with
    | nil => simp [Re.m] at h
    | cons c cs2 =>
      rw [Re.m] at h
      split_ifs at h with hp
      rcases starM_suffix h with ⟨rest, pre, hpre, hk⟩
      exact ⟨rest, c :: pre, by simp [hpre], hk⟩
  | seq a b iha ihb =>
    intro cs k res h
    rw [Re.m] at h
    rcases iha h with ⟨rest1, pre1, hpre1, hk1⟩
    rcases ihb hk1 with ⟨rest2, pre2, hpre2, hk2⟩
    exact ⟨rest2, pre1 ++ pre2, by simp [hpre1, hpre2], hk2⟩
  | alt a b iha ihb =>
    intro cs k res h
    rw [Re.m] at h
    rcases optOrElse_some h with h1 | ⟨-, h2⟩
    · exact iha h1
    · exact ihb h2

theorem reSearch_none_iff (r : Re) (cs : List Char) :
    reSearch r cs = none ↔ ∀ i, r.m (cs.drop i) some = none := by
  induction cs with
  | nil =>
    rw [reSearch]
    cases hm : Re.m r [] some with
    | none => simp [hm]
    | some rest =>
      simp only [List.drop_nil]
      constructor
      · intro h; simp at h
      · intro h; exact absurd (h 0) (by simp [hm])
  | cons c cs2 ih =>
    rw [reSearch]
    cases hm : Re.m r (c :: cs2) some with
    | some rest =>
      simp only []
      constructor
      · intro h; simp at h
      · intro h
        have := h 0
        simp [hm] at this
    | none =>
      simp only []
      rw [ih]
      constructor
      · intro h i
        cases i with
        | zero => simpa using hm
        | succ j => simpa using h j
      · intro h j
        have := h (j + 1)
        simpa using this

theorem reSearch_some_first {r : Re} {cs : List Char} {s : List Char}
    (h : reSearch r cs = some s) :
    ∃ i rest,
      (∀ j, j < i → r.m (cs.drop j) some = none) ∧
      r.m (cs.drop i) some = some rest ∧
      s = (cs.drop i).take ((cs.drop i).length - rest.length) := by
  induction cs with
  | nil =>
    rw [reSearch] at h
    cases hm : Re.m r [] some with
    | none => rw [hm] at h; simp at h
    | some rest =>
      rw [hm] at h
      simp only [Option.some.injEq] at h
      exact ⟨0, rest, by omega, by simpa using hm, by simpa using h.symm⟩
  | cons c cs2 ih =>
    rw [reSearch] at h
    cases hm : Re.m r (c :: cs2) some with
    | some rest =>
      rw [hm] at h
      simp only [Option.some.injEq] at h
      exact ⟨0, rest, by omega, by simpa using hm, by simpa using h.symm⟩
    | none =>
      rw [hm] at h
      simp only [] at h
      rcases ih h with ⟨i, rest, hbefore, hmatch, hspan⟩
      refine ⟨i + 1, rest, ?_, by simpa using hmatch, by simpa using hspan⟩
      intro j hj
      cases j with
      | zero => simpa using hm
      | succ j2 =>
        have := hbefore j2 (by omega)
        simpa using this

theorem seqAltLit_facts {L1 L2 : List Char} {r1 T : Re} {cs res : List Char}
    (h : Re.m (.seq (.alt (.seq (.lit L1) r1) (.lit L2)) T) cs some
         = some res) :
    ∃ rest1, (cs = L1 ++ rest1 ∨ cs = L2 ++ rest1) ∧
      res.length ≤ rest1.length := by
  have h1 : (Re.m (.seq (.lit L1) r1) cs
      (fun rest => Re.m T rest some) <|>
      Re.m (.lit L2) cs (fun rest => Re.m T rest some)) = some res := h
  rcases optOrElse_some h1 with h2 | ⟨-, h2⟩
  · have h3 : (match litMatch L1 cs with
        | some rest =>
          Re.m r1 rest (fun rest2 => Re.m T rest2 some)
        | none => none) = some res := h2
    cases hl : litMatch L1 cs with
    | none => rw [hl] at h3; simp at h3
    | some rest1 =>
      rw [hl] at h3
      simp only [] at h3
      rcases Re.m_suffix h3 with ⟨rest2, pre2, hpre2, hk2⟩
      rcases Re.m_suffix hk2 with ⟨rest3, pre3, hpre3, hk3⟩
      have hres : rest3 = res := by simpa using hk3
      refine ⟨rest1, Or.inl (litMatch_eq_some hl), ?_⟩
      subst hres hpre2 hpre3
      simp
      omega
  · have h3 : (match litMatch L2 cs with
        | some rest => Re.m T rest some
        | none => none) = some res := h2
    cases hl : litMatch L2 cs with
    | none => rw [hl] at h3; simp at h3
    | some rest1 =>
      rw [hl] at h3
      simp only [] at h3
      rcases Re.m_suffix h3 with ⟨rest2, pre2, hpre2, hk2⟩
      have hres : rest2 = res := by simpa using hk2
      refine ⟨rest1, Or.inr (litMatch_eq_some hl), ?_⟩
      subst hres hpre2
      simp

theorem golangRe_m_facts {cs res : List Char}
    (h : golangRe.m cs some = some res) :
    res.length + 1 ≤ cs.length ∧ ∃ t, cs = 'g' :: t := by
  rcases seqAltLit_facts h with ⟨rest1, hcs | hcs, hlen⟩
  · have hL : ("go-toolset-1".toList : List Char)
        = 'g' :: "o-toolset-1".toList := rfl
    constructor
    · have : cs.length = 12 + rest1.length := by
        rw [hcs]
        simp
        omega
      omega
    · exact ⟨"o-toolset-1".toList ++ rest1, by rw [hcs, hL]; rfl⟩
  · have hL : ("golang-bin".toList : List Char)
        = 'g' :: "olang-bin".toList := rfl
    constructor
    · have : cs.length = 10 + rest1.length := by
        rw [hcs]
        simp
        omega
      omega
    · exact ⟨"olang-bin".toList ++ rest1, by rw [hcs, hL]; rfl⟩

/-! ## Whitespace-collapse lemmas -/

theorem wordsOf_single (c : Char) :
    wordsOf [c] = if isWs c then [] else [[c]] := rfl

theorem wordsOf_cons2 (c d : Char) (ds : List Char) :
    wordsOf (c :: d :: ds) =
      if isWs c then wordsOf (d :: ds)
      else if isWs d then [c] :: wordsOf (d :: ds)
      else
        match wordsOf (d :: ds) with
        | [] => [[c]]
        | w :: ws => (c :: w) :: ws := rfl

theorem joinWords_singleton (w : List Char) : joinWords [w] = w := rfl

theorem joinWords_cons_cons (w w2 : List Char) (ws : List (List Char)) :
    joinWords (w :: w2 :: ws) = w ++ ' ' :: joinWords (w2 :: ws) := rfl

theorem noTwoSpaces_cons2 (c d : Char) (rest : List Char) :
    noTwoSpaces (c :: d :: rest) =
      (!(isWs c && isWs d) && noTwoSpaces (d :: rest)) := rfl

theorem wordsOf_sound (cs : List Char) :
    ∀ w ∈ wordsOf cs, w ≠ [] ∧ w.all nonWs = true := by
  induction cs with
  | nil =>
    intro w hw
    rw [show wordsOf ([] : List Char) = [] from rfl] at hw
    simp at hw
  | cons c cs2 ih =>
    intro w hw
    cases cs2 with
    | nil =>
      rw [wordsOf_single] at hw
      by_cases hc : isWs c
      · rw [if_pos hc] at hw
        simp at hw
      · rw [if_neg hc] at hw
        simp only [List.mem_singleton] at hw
        subst hw
        simp [nonWs, hc]
    | cons d ds =>
      rw [wordsOf_cons2] at hw
      by_cases hc : isWs c
      · rw [if_pos hc] at hw
        exact ih w hw
      · rw [if_neg hc] at hw
        by_cases hd : isWs d
        · rw [if_pos hd] at hw
          rcases List.mem_cons.mp hw with rfl | hw2
          · simp [nonWs, hc]
          · exact ih w hw2
        · rw [if_neg hd] at hw
          cases hws : wordsOf (d :: ds) with
          | nil =>
            rw [hws] at hw
            simp only [List.mem_singleton] at hw
            subst hw
            simp [nonWs, hc]
          | cons w2 ws2 =>
            rw [hws] at hw
            simp only [] at hw
            rcases List.mem_cons.mp hw with rfl | hw2
            · have h2 := ih w2 (by rw [hws]; simp)
              refine ⟨by simp, ?_⟩
              simp only [List.all_cons, Bool.and_eq_true]
              exact ⟨by simp [nonWs, hc], h2.2⟩
            · exact ih w (by rw [hws]; simp [hw2])

theorem wordsOf_cons_ne_nil {c : Char} (cs : List Char)
    (hc : isWs c = false) : wordsOf (c :: cs) ≠ [] := by
  cases cs with
  | nil =>
    rw [wordsOf_single, if_neg (by simp [hc])]
    simp
  | cons d ds =>
    rw [wordsOf_cons2, if_neg (by simp [hc])]
    by_cases hd : isWs d
    · rw [if_pos hd]
      simp
    · rw [if_neg hd]
      cases wordsOf (d :: ds) <;> simp

theorem joinWords_ne_nil {w : List Char} (ws : List (List Char))
    (hw : w ≠ []) : joinWords (w :: ws) ≠ [] := by
  cases ws with
  | nil => simpa [joinWords_singleton] using hw
  | cons w2 ws2 =>
    rw [joinWords_cons_cons]
    simp [hw]

theorem noTwoSpaces_append {w t : List Char} (hw : w.all nonWs = true)
    (ht : noTwoSpaces t = true) : noTwoSpaces (w ++ t) = true := by
  induction w with
  | nil => simpa using ht
  | cons c w2 ih =>
    simp only [List.all_cons, Bool.and_eq_true] at hw
    have ih2 := ih hw.2
    have hcw : isWs c = false := by
      have := hw.1
      simpa [nonWs] using this
    rw [List.cons_append]
    cases hz : w2 ++ t with
    | nil => rfl
    | cons d rest =>
      rw [noTwoSpaces_cons2]
      rw [hz] at ih2
      simp [hcw, ih2]

theorem getLast?_append_right (l1 : List Char) {l2 : List Char}
    (h : l2 ≠ []) : (l1 ++ l2).getLast? = l2.getLast? := by
  induction l1 with
  | nil => rfl
  | cons c l1' ih =>
    rw [List.cons_append]
    cases hx : l1' ++ l2 with
    | nil =>
      exact absurd (List.append_eq_nil.mp hx).2 h
    | cons y ys =>
      rw [List.getLast?_cons_cons, ← hx, ih]

theorem all_nonWs_getLast {w : List Char} {c : Char}
    (hw : w.all nonWs = true) (h : w.getLast? = some c) : isWs c = false := by
  have hmem : c ∈ w := by
    have h2 : w.dropLast ++ [c] = w := List.dropLast_append_getLast? c h
    rw [← h2]
    simp
  have := List.all_eq_true.mp hw c hmem
  simpa [nonWs] using this

theorem collapsedOK_joinWords (ws : List (List Char))
    (h : ∀ w ∈ ws, w ≠ [] ∧ w.all nonWs = true) :
    collapsedOK (joinWords ws) = true := by
  induction ws with
  | nil => rfl
  | cons w ws2 ih =>
    rcases h w (by simp) with ⟨hwne, hwall⟩
    cases ws2 with
    | nil =>
      rw [joinWords_singleton]
      unfold collapsedOK
      simp only [Bool.and_eq_true]
      refine ⟨⟨⟨?_, ?_⟩, ?_⟩, ?_⟩
      · cases w with
        | nil => simp
        | cons a w' =>
          simp only [List.head?_cons]
          have := List.all_eq_true.mp hwall a (by simp)
          simp [nonWs] at this
          simp [this]
      · cases hl : w.getLast? with
        | none => simp
        | some c => simp [all_nonWs_getLast hwall hl]
      · rw [List.all_eq_true]
        intro c hc
        have := List.all_eq_true.mp hwall c hc
        simp [nonWs] at this
        simp [this]
      · have h2 : noTwoSpaces (w ++ []) = true := noTwoSpaces_append hwall rfl
        rwa [List.append_nil] at h2
    | cons w2 ws3 =>
      have ih2 := ih (fun v hv => h v (by simp [hv]))
      rcases h w2 (by simp) with ⟨hw2ne, hw2all⟩
      rw [joinWords_cons_cons]
      unfold collapsedOK at ih2 ⊢
      simp only [Bool.and_eq_true] at ih2 ⊢
      have hjoin_ne : joinWords (w2 :: ws3) ≠ [] := joinWords_ne_nil ws3 hw2ne
      obtain ⟨a, j', hj⟩ : ∃ a j', joinWords (w2 :: ws3) = a :: j' := by
        cases hjj : joinWords (w2 :: ws3) with
        | nil => exact absurd hjj hjoin_ne
        | cons a j' => exact ⟨a, j', rfl⟩
      have hahead : isWs a = false := by
        have h1 := ih2.1.1.1
        rw [hj] at h1
        simp only [List.head?_cons] at h1
        simpa using h1
      refine ⟨⟨⟨?_, ?_⟩, ?_⟩, ?_⟩
      · cases w with
        | nil => exact absurd rfl hwne
        | cons b w' =>
          simp only [List.cons_append, List.head?_cons]
          have := List.all_eq_true.mp hwall b (by simp)
          simp [nonWs] at this
          simp [this]
      · rw [getLast?_append_right w (by simp)]
        have h1 := ih2.1.1.2
        cases hl : (joinWords (w2 :: ws3)).getLast? with
        | none =>
          rw [List.getLast?_eq_none_iff] at hl
          exact absurd hl hjoin_ne
        | some c =>
          have heq : (' ' :: joinWords (w2 :: ws3)).getLast? = some c := by
            rw [hj] at hl ⊢
            rw [List.getLast?_cons_cons]
            exact hl
          rw [heq]
          rw [hl] at h1
          simpa using h1
      · rw [List.all_append]
        simp only [Bool.and_eq_true]
        constructor
        · rw [List.all_eq_true]
          intro c hc
          have := List.all_eq_true.mp hwall c hc
          simp [nonWs] at this
          simp [this]
        · rw [List.all_cons]
          simp only [Bool.and_eq_true]
          exact ⟨by simp, ih2.1.2⟩
      · refine noTwoSpaces_append hwall ?_
        rw [hj, noTwoSpaces_cons2]
        simp only [Bool.and_eq_true]
        constructor
        · simp [hahead]
        · rw [← hj]
          exact ih2.2

/-! ## Claim theorems -/

/-- C7: For each of the four known architecture names, translating to the
toolchain (go) naming convention and back to the build (brew) naming
convention is the identity, the reverse composition is also the identity,
and each direction is idempotent on already-canonical values (either naming
convention is accepted as input). -/
theorem C7_arch_round_trips :
    ((go_arch_for_brew_arch "x86_64").bind brew_arch_for_go_arch
        = some "x86_64"
      ∧ (go_arch_for_brew_arch "s390x").bind brew_arch_for_go_arch
        = some "s390x"
      ∧ (go_arch_for_brew_arch "ppc64le").bind brew_arch_for_go_arch
        = some "ppc64le"
      ∧ (go_arch_for_brew_arch "aarch64").bind brew_arch_for_go_arch
        = some "aarch64")
    ∧ ((brew_arch_for_go_arch "amd64").bind go_arch_for_brew_arch
        = some "amd64"
      ∧ (brew_arch_for_go_arch "s390x").bind go_arch_for_brew_arch
        = some "s390x"
      ∧ (brew_arch_for_go_arch "ppc64le").bind go_arch_for_brew_arch
        = some "ppc64le"
      ∧ (brew_arch_for_go_arch "arm64").bind go_arch_for_brew_arch
        = some "arm64")
    ∧ (go_arch_for_brew_arch "amd64" = some "amd64"
      ∧ go_arch_for_brew_arch "s390x" = some "s390x"
      ∧ go_arch_for_brew_arch "ppc64le" = some "ppc64le"
      ∧ go_arch_for_brew_arch "arm64" = some "arm64")
    ∧ (brew_arch_for_go_arch "x86_64" = some "x86_64"
      ∧ brew_arch_for_go_arch "s390x" = some "s390x"
      ∧ brew_arch_for_go_arch "ppc64le" = some "ppc64le"
      ∧ brew_arch_for_go_arch "aarch64" = some "aarch64") := by
  decide

/-- C8 counterexample: `get_latest_stable_ocp` does not translate its arch
argument via the architecture translator — `"aarch64"` is sent to the
release-graph source as `"aarch64"`, not as `"arm64"`: a fetch oracle that
distinguishes the two shows the request carries `"aarch64"`, although
`go_arch_for_brew_arch "aarch64" = some "arm64"`. -/
theorem C8_counterexample :
    get_latest_stable_ocp "4.9" "aarch64"
        (fun a _ => if a = "arm64" then ["9.9.9"] else ["1.0.0"])
      = some "1.0.0"
    ∧ cincinnati_arch "aarch64" = "aarch64"
    ∧ go_arch_for_brew_arch "aarch64" = some "arm64" := by
  refine ⟨rfl, rfl, by decide⟩

/-- C8 (amended): `get_latest_stable_ocp` builds its channel as the literal
`"stable-"` joined with the minor-version string, adjusts its arch argument
only by replacing `"x86_64"` with `"amd64"` (every other value, `"aarch64"`
included, passes through unchanged — not via ArchTranslator), and issues a
single fetch for that channel/arch pair: the result depends on the
release-graph source only through its answer at that one pair. -/
theorem C8_amended_channel_arch (version arch : String)
    (f g : String → String → List String) :
    cincinnati_channel version = "stable-" ++ version
    ∧ cincinnati_arch "x86_64" = "amd64"
    ∧ (arch ≠ "x86_64" → cincinnati_arch arch = arch)
    ∧ (f (cincinnati_arch arch) (cincinnati_channel version)
         = g (cincinnati_arch arch) (cincinnati_channel version) →
       get_latest_stable_ocp version arch f
         = get_latest_stable_ocp version arch g) := by
  refine ⟨rfl, rfl, ?_, ?_⟩
  · intro h
    simp [cincinnati_arch, h]
  · intro h
    show (sort_semver
        (f (cincinnati_arch arch) (cincinnati_channel version))).head?
      = (sort_semver
        (g (cincinnati_arch arch) (cincinnati_channel version))).head?
    rw [h]

/-- C8 witness: the amended statement evaluated at `version = "4.9"`,
`arch = "aarch64"` and two fetch oracles agreeing at
`("aarch64", "stable-4.9")`. -/
theorem C8_amended_channel_arch_witness :
    cincinnati_channel "4.9" = "stable-4.9"
    ∧ cincinnati_arch "x86_64" = "amd64"
    ∧ cincinnati_arch "aarch64" = "aarch64"
    ∧ get_latest_stable_ocp "4.9" "aarch64" (fun _ _ => ["4.9.9"])
        = get_latest_stable_ocp "4.9" "aarch64"
            (fun a c => if a = "aarch64" ∧ c = "stable-4.9"
                        then ["4.9.9"] else []) := by
  have h := C8_amended_channel_arch "4.9" "aarch64" (fun _ _ => ["4.9.9"])
      (fun a c => if a = "aarch64" ∧ c = "stable-4.9" then ["4.9.9"] else [])
  exact ⟨h.1, h.2.1, h.2.2.1 (by decide), h.2.2.2 (by decide)⟩

/-- C9: when the fetched release graph's node list is empty,
`get_latest_stable_ocp` fails (the `descending_versions[0]` lookup raises,
modelled as `none`); it never returns a default value. -/
theorem C9_empty_graph_fails (version arch : String)
    (fetch : String → String → List String)
    (h : fetch (cincinnati_arch arch) (cincinnati_channel version) = []) :
    get_latest_stable_ocp version arch fetch = none := by
  show (sort_semver
      (fetch (cincinnati_arch arch) (cincinnati_channel version))).head? = none
  rw [h]
  rfl

/-- C9 witness: the empty release graph at `("4.9", "x86_64")`. -/
theorem C9_empty_graph_fails_witness :
    get_latest_stable_ocp "4.9" "x86_64" (fun _ _ => []) = none :=
  C9_empty_graph_fails "4.9" "x86_64" (fun _ _ => []) rfl

/-- C2 counterexample: on the node set `["4.9.12", "4.9.13-rc.1"]` the
selection returns `"4.9.13-rc.1"`, not `"4.9.12"`: under standard semver
precedence a pre-release of a *higher* core (4.9.13) outranks a release of a
lower core (4.9.12). -/
theorem C2_counterexample :
    get_latest_stable_ocp "4.9" "x86_64"
        (fun _ _ => ["4.9.12", "4.9.13-rc.1"]) = some "4.9.13-rc.1"
    ∧ get_latest_stable_ocp "4.9" "x86_64"
        (fun _ _ => ["4.9.12", "4.9.13-rc.1"]) ≠ some "4.9.12" := by
  refine ⟨rfl, by decide⟩

/-- C2 (amended): given the node set `["4.9.12", "4.9.13-rc.1"]` the
selection returns `"4.9.13-rc.1"` (a higher core outranks regardless of
pre-release tags); a pre-release-tagged version never outranks a release
version with the *same* core: on `["4.9.12", "4.9.12-rc.1"]` it returns
`"4.9.12"`. -/
theorem C2_amended_selection :
    get_latest_stable_ocp "4.9" "x86_64"
        (fun _ _ => ["4.9.12", "4.9.13-rc.1"]) = some "4.9.13-rc.1"
    ∧ get_latest_stable_ocp "4.9" "x86_64"
        (fun _ _ => ["4.9.12", "4.9.12-rc.1"]) = some "4.9.12" := by
  exact ⟨rfl, rfl⟩

/-- C3 counterexample: selection is not order-independent at the string
level — two valid semver strings differing only in build metadata compare
equal, and the stable sort then returns whichever came first: permuting
`["1.0.0+a", "1.0.0+b"]` changes the returned version. -/
theorem C3_counterexample :
    get_latest_stable_ocp "4.9" "x86_64" (fun _ _ => ["1.0.0+a", "1.0.0+b"])
      = some "1.0.0+a"
    ∧ get_latest_stable_ocp "4.9" "x86_64" (fun _ _ => ["1.0.0+b", "1.0.0+a"])
      = some "1.0.0+b"
    ∧ validSemVer "1.0.0+a" = true
    ∧ validSemVer "1.0.0+b" = true := by
  exact ⟨rfl, rfl, rfl, rfl⟩

/-- C3 (amended): for every non-empty node list of valid semver strings,
`get_latest_stable_ocp` returns an element of the list of maximal semver
precedence — unconditionally, equal-precedence ties included; and, when
additionally no two distinct listed versions have equal precedence (i.e.
none differ only in build metadata), the selection depends only on the
element set: any node list with the same elements — permuted and/or with
duplicates — yields the same version. -/
theorem C3_amended_max_order_independent (version arch : String)
    (nodes nodes2 : List String)
    (hne : nodes ≠ [])
    (hv : ∀ v ∈ nodes, validSemVer v = true) :
    ∃ m, get_latest_stable_ocp version arch (fun _ _ => nodes) = some m
      ∧ m ∈ nodes
      ∧ (∀ x ∈ nodes, 0 ≤ semver_compare m x)
      ∧ ((∀ v, v ∈ nodes ↔ v ∈ nodes2) →
         (∀ x ∈ nodes, ∀ y ∈ nodes, semver_compare x y = 0 → x = y) →
         get_latest_stable_ocp version arch (fun _ _ => nodes2) = some m) := by
  obtain ⟨m, t, hs⟩ : ∃ m t, sortDescBy semver_compare nodes = m :: t := by
    cases nodes with
    | nil => exact absurd rfl hne
    | cons n0 rest =>
      rw [sortDescBy]
      cases hx : insertDescBy semver_compare n0
          (sortDescBy semver_compare rest) with
      | nil => exact absurd hx (insertDescBy_ne_nil _ _ _)
      | cons a b => exact ⟨a, b, rfl⟩
  have hmem : m ∈ nodes := by
    have : m ∈ sortDescBy semver_compare nodes := by
      rw [hs]
      simp
    exact (mem_sortDescBy _ _ _).mp this
  have hmax : ∀ x ∈ nodes, 0 ≤ semver_compare m x := sortDescBy_head_max hv hs
  refine ⟨m, ?_, hmem, hmax, ?_⟩
  · show (sort_semver nodes).head? = some m
    unfold sort_semver
    rw [hs]
    rfl
  · intro hset huniq
    have hne2 : nodes2 ≠ [] := by
      cases nodes with
      | nil => exact absurd rfl hne
      | cons n0 rest =>
        exact List.ne_nil_of_mem ((hset n0).mp (by simp))
    obtain ⟨m2, t2, hs2⟩ : ∃ m t, sortDescBy semver_compare nodes2 = m :: t := by
      cases nodes2 with
      | nil => exact absurd rfl hne2
      | cons n0 rest =>
        rw [sortDescBy]
        cases hx : insertDescBy semver_compare n0
            (sortDescBy semver_compare rest) with
        | nil => exact absurd hx (insertDescBy_ne_nil _ _ _)
        | cons a b => exact ⟨a, b, rfl⟩
    have hv2 : ∀ v ∈ nodes2, validSemVer v = true :=
      fun v hv2 => hv v ((hset v).mpr hv2)
    have hmem2 : m2 ∈ nodes2 := by
      have : m2 ∈ sortDescBy semver_compare nodes2 := by
        rw [hs2]
        simp
      exact (mem_sortDescBy _ _ _).mp this
    have hmax2 : ∀ x ∈ nodes2, 0 ≤ semver_compare m2 x :=
      sortDescBy_head_max hv2 hs2
    have hm2mem : m2 ∈ nodes := (hset m2).mpr hmem2
    have h1 : 0 ≤ semver_compare m m2 := hmax m2 hm2mem
    have h2 : 0 ≤ semver_compare m2 m := hmax2 m ((hset m).mp hmem)
    have h0 : semver_compare m m2 = 0 := by
      have := semver_compare_neg m m2
      omega
    have heq : m = m2 := huniq m hmem m2 hm2mem h0
    show (sort_semver nodes2).head? = some m
    unfold sort_semver
    rw [hs2, heq]
    rfl

/-- C3 witness: the amended statement at `["4.9.9", "4.9.12"]`, including
the order-independence part against the reordered-and-duplicated variant
`["4.9.12", "4.9.12", "4.9.9"]`. -/
theorem C3_amended_max_order_independent_witness :
    ∃ m, get_latest_stable_ocp "4.9" "x86_64"
          (fun _ _ => ["4.9.9", "4.9.12"]) = some m
      ∧ m ∈ ["4.9.9", "4.9.12"]
      ∧ (∀ x ∈ ["4.9.9", "4.9.12"], 0 ≤ semver_compare m x)
      ∧ get_latest_stable_ocp "4.9" "x86_64"
          (fun _ _ => ["4.9.12", "4.9.12", "4.9.9"]) = some m := by
  obtain ⟨m, h1, h2, h3, h4⟩ := C3_amended_max_order_independent "4.9" "x86_64"
    ["4.9.9", "4.9.12"] ["4.9.12", "4.9.12", "4.9.9"]
    (by decide)
    (by decide)
  exact ⟨m, h1, h2, h3, h4 (by intro v; simp; tauto) (by decide)⟩

/-- C1: for every list of N build units given to a full pipeline run, on
completion successes + sourceFailures + extractionFailures equals N, on both
paths.  The RPM path holds unconditionally; the container path holds for
every run that completes (`some res` — an uncaught exception, possible only
in the stale-`build_log` corner, aborts instead of dropping units) whenever
the metadata source returns one record per requested unit, and no unit is
silently dropped from the output. -/
theorem C1_full_pipeline_accounting (oracle : BrewOracle) (nvrs : List Nvr)
    (res : ContState)
    (hobjs : (oracle.buildObjects nvrs).length = nvrs.length)
    (hrun : get_golang_container_nvrs oracle nvrs = some res) :
    (get_golang_rpm_nvrs oracle nvrs).results.length
        + (get_golang_rpm_nvrs oracle nvrs).brew_fail
        + (get_golang_rpm_nvrs oracle nvrs).go_fail = nvrs.length
    ∧ res.results.length + res.brew_fail + res.go_fail = nvrs.length := by
  constructor
  · have h := get_golang_rpm_nvrs_total oracle nvrs
    simpa [RunCounts.total] using h
  · have hrun2 : run_container_builds oracle nvrs ⟨[], 0, 0, none⟩
        (oracle.buildObjects nvrs) = some res := hrun
    have h := run_container_builds_total hrun2
    rw [hobjs] at h
    simpa [ContState.total] using h

/-- C1 witness: a one-unit batch through both paths of `demoOracle`. -/
theorem C1_full_pipeline_accounting_witness :
    (get_golang_rpm_nvrs demoOracle [⟨"pkg", "1", "1"⟩]).results.length
        + (get_golang_rpm_nvrs demoOracle [⟨"pkg", "1", "1"⟩]).brew_fail
        + (get_golang_rpm_nvrs demoOracle [⟨"pkg", "1", "1"⟩]).go_fail = 1
    ∧ (⟨[("pkg", "go-build-1")], 0, 0, none⟩ : ContState).results.length
        + (⟨[("pkg", "go-build-1")], 0, 0, none⟩ : ContState).brew_fail
        + (⟨[("pkg", "go-build-1")], 0, 0, none⟩ : ContState).go_fail = 1 :=
  C1_full_pipeline_accounting demoOracle [⟨"pkg", "1", "1"⟩]
    ⟨[("pkg", "go-build-1")], 0, 0, none⟩ rfl rfl

/-- C5: for a container unit whose fetched metadata carries a parent-image
map with one entry whose key contains `"builder"` and that entry's NVR
string present and nonempty, the pipeline step records that NVR directly as
the resolved version; the resulting state does not depend on the log oracle
in any way and leaves `build_log` untouched — no build-log fetch and no text
extraction happens for that unit. -/
theorem C5_builder_parent_direct (oracle : BrewOracle) (nvrs : List Nvr)
    (st : ContState) (build : BuildObj) (ps : List (String × ParentInfo))
    (k : String) (info : ParentInfo) (v : String)
    (hp : build.parents = some ps)
    (hf : ps.filter (fun e => pyIn "builder" e.1) = [(k, info)])
    (hn : info.nvr = some v) (hv : v ≠ "") :
    container_step oracle nvrs st build
      = some { st with results := st.results ++ [(build.name, v)] } := by
  unfold container_step
  rw [hp]
  simp only []
  have hscan : scan_parents ps = some v := by
    rw [scan_parents_eq_last, hf]
    simpa using hn
  rw [hscan]
  simp only []
  rw [if_neg hv]

/-- C5 witness: a single `builder`-keyed parent entry with NVR
`golang-builder-container-v1.16.7-1` resolves to exactly that NVR. -/
theorem C5_builder_parent_direct_witness :
    container_step demoOracle [] ⟨[], 0, 0, none⟩
        ⟨"img",
         some [("builder", ⟨some "golang-builder-container-v1.16.7-1"⟩)]⟩
      = some ⟨[("img", "golang-builder-container-v1.16.7-1")], 0, 0, none⟩ :=
  C5_builder_parent_direct demoOracle [] ⟨[], 0, 0, none⟩
    ⟨"img", some [("builder", ⟨some "golang-builder-container-v1.16.7-1"⟩)]⟩
    [("builder", ⟨some "golang-builder-container-v1.16.7-1"⟩)]
    "builder" ⟨some "golang-builder-container-v1.16.7-1"⟩
    "golang-builder-container-v1.16.7-1"
    rfl (by decide) rfl (by decide)

/-- C6 counterexample: when the metadata lacks the parent-image map, the
unit is tallied as a source failure and skipped with *no* fallback, even for
a unit named `foo-golang-builder` whose own build log is available and
extractable; the claim's prescribed fallback (fetch own log, extract) does
not run, as the untouched `lastLog` and the absence of a result line show. -/
theorem C6_counterexample :
    container_step demoOracle [⟨"foo-golang-builder", "1", "1"⟩]
        ⟨[], 0, 0, none⟩ ⟨"foo-golang-builder", none⟩
      = some ⟨[], 1, 0, none⟩
    ∧ pyIn "golang-builder" "foo-golang-builder" = true
    ∧ demoOracle.archLog ⟨"foo-golang-builder", "1", "1"⟩
        = some "golang-bin 1.2.3"
    ∧ get_golang_version_from_build_log "golang-bin 1.2.3"
        = some "golang-bin 1.2.3" := by
  refine ⟨rfl, by decide, rfl, rfl⟩

/-- C6 (amended): when the metadata lacks the parent-image map the unit is
tallied as a source failure (`MetadataMissing`) with no fallback; the
fallback runs instead when metadata is present but yields no truthy builder
NVR: if the unit's name contains `"golang-builder"`, its own build log is
fetched and the extractor runs with the same success/failure tallying as the
RPM path (`tally_unit`); otherwise the unit is tallied as an extraction
failure with no fallback. -/
theorem C6_amended_fallback (oracle : BrewOracle) (nvrs : List Nvr)
    (st : ContState) (build : BuildObj) :
    (build.parents = none →
      container_step oracle nvrs st build
        = some { st with brew_fail := st.brew_fail + 1 })
    ∧ (∀ ps, build.parents = some ps →
        pyTruthy (scan_parents ps) = false →
        pyIn "golang-builder" build.name = true →
        ∀ newLog failed,
          fallback_fetch oracle build.name nvrs st.lastLog
            = (newLog, failed) →
          (failed = true →
            container_step oracle nvrs st build
              = some (mkContState
                  (tally_unit st.counts build.name none) newLog))
          ∧ (failed = false → ∀ text, newLog = some text →
              container_step oracle nvrs st build
                = some (mkContState
                    (tally_unit st.counts build.name (some text))
                    (some text))))
    ∧ (∀ ps, build.parents = some ps →
        pyTruthy (scan_parents ps) = false →
        pyIn "golang-builder" build.name = false →
        container_step oracle nvrs st build
          = some { st with go_fail := st.go_fail + 1 }) := by
  refine ⟨?_, ?_, ?_⟩
  · intro hp
    unfold container_step
    rw [hp]
  · intro ps hp htruthy hname newLog failed hfetch
    have hfall : container_step oracle nvrs st build
        = container_fallback oracle nvrs st build := by
      unfold container_step
      rw [hp]
      simp only []
      cases hscan : scan_parents ps with
      | none => rfl
      | some v =>
        rw [hscan] at htruthy
        simp only [pyTruthy] at htruthy
        have hv : v = "" := by
          by_contra hne
          simp [hne] at htruthy
        simp only []
        rw [if_pos hv]
    constructor
    · intro hfail
      subst hfail
      rw [hfall]
      unfold container_fallback
      rw [if_pos hname, hfetch]
      simp [mkContState, tally_unit, ContState.counts]
    · intro hfail text htext
      subst hfail
      subst htext
      rw [hfall]
      unfold container_fallback
      rw [if_pos hname, hfetch]
      cases he : get_golang_version_from_build_log text with
      | none => simp [he, mkContState, tally_unit, ContState.counts]
      | some v => simp [he, mkContState, tally_unit, ContState.counts]
  · intro ps hp htruthy hname
    have hfall : container_step oracle nvrs st build
        = container_fallback oracle nvrs st build := by
      unfold container_step
      rw [hp]
      simp only []
      cases hscan : scan_parents ps with
      | none => rfl
      | some v =>
        rw [hscan] at htruthy
        simp only [pyTruthy] at htruthy
        have hv : v = "" := by
          by_contra hne
          simp [hne] at htruthy
        simp only []
        rw [if_pos hv]
    rw [hfall]
    unfold container_fallback
    rw [if_neg (by simp [hname])]

/-- C6 witness: a `golang-builder`-named unit with metadata present but no
builder entry goes through the fallback — its own log is fetched and the
extraction tallied exactly as on the RPM path. -/
theorem C6_amended_fallback_witness :
    container_step demoOracle [⟨"foo-golang-builder", "1", "1"⟩]
        ⟨[], 0, 0, none⟩ ⟨"foo-golang-builder", some []⟩
      = some (mkContState
          (tally_unit (ContState.counts ⟨[], 0, 0, none⟩)
            "foo-golang-builder" (some "golang-bin 1.2.3"))
          (some "golang-bin 1.2.3")) :=
  ((C6_amended_fallback demoOracle [⟨"foo-golang-builder", "1", "1"⟩]
      ⟨[], 0, 0, none⟩ ⟨"foo-golang-builder", some []⟩).2.1
    [] rfl (by decide) (by decide)
    (some "golang-bin 1.2.3") false rfl).2 rfl "golang-bin 1.2.3" rfl

/-- C10: when a container build's parent-image map contains more than one
entry whose key contains `"builder"`, the resolved version is the NVR of the
last such entry in iteration order — each later builder entry overwrites the
NVR taken from earlier ones (provided that last entry carries a nonempty
NVR). -/
theorem C10_last_builder_wins (oracle : BrewOracle) (nvrs : List Nvr)
    (st : ContState) (build : BuildObj) (ps : List (String × ParentInfo))
    (e : String × ParentInfo) (v : String)
    (hp : build.parents = some ps)
    (_hcount : 2 ≤ (ps.filter (fun x => pyIn "builder" x.1)).length)
    (hl : (ps.filter (fun x => pyIn "builder" x.1)).getLast? = some e)
    (hn : e.2.nvr = some v) (hv : v ≠ "") :
    container_step oracle nvrs st build
      = some { st with results := st.results ++ [(build.name, v)] } := by
  unfold container_step
  rw [hp]
  simp only []
  have hscan : scan_parents ps = some v := by
    rw [scan_parents_eq_last, hl]
    simpa using hn
  rw [hscan]
  simp only []
  rw [if_neg hv]

/-- C10 witness: two builder-keyed entries; the second one's NVR wins. -/
theorem C10_last_builder_wins_witness :
    container_step demoOracle [] ⟨[], 0, 0, none⟩
        ⟨"img", some [("builder-a", ⟨some "nvr-a"⟩), ("x", ⟨some "zz"⟩),
                      ("builder-b", ⟨some "nvr-b"⟩)]⟩
      = some ⟨[("img", "nvr-b")], 0, 0, none⟩ :=
  C10_last_builder_wins demoOracle [] ⟨[], 0, 0, none⟩
    ⟨"img", some [("builder-a", ⟨some "nvr-a"⟩), ("x", ⟨some "zz"⟩),
                  ("builder-b", ⟨some "nvr-b"⟩)]⟩
    [("builder-a", ⟨some "nvr-a"⟩), ("x", ⟨some "zz"⟩),
     ("builder-b", ⟨some "nvr-b"⟩)]
    ("builder-b", ⟨some "nvr-b"⟩) "nvr-b"
    rfl (by decide) (by decide) rfl (by decide)

/-- C4 counterexample: the extractor's version pattern does not require a
*dotted* numeric version — the dots in the Python pattern are unescaped
wildcards.  The log text `"golang-bin 12345"` contains no dot at all (hence
no three-component dotted numeric version), yet `extract` succeeds on it
instead of failing with `VersionNotFound`. -/
theorem C4_counterexample :
    get_golang_version_from_build_log "golang-bin 12345"
        = some "golang-bin 12345"
    ∧ "golang-bin 12345".toList.all (fun c => c != '.') = true := by
  refine ⟨rfl, by decide⟩

/-- C4 (amended): for every log text, `extract` fails (the
`VersionNotFound`/`AttributeError` outcome, never an empty string) exactly
when the embedded pattern — a packaged-toolchain name (`go-toolset-1` plus a
non-whitespace tail) or the toolchain-binary package name (`golang-bin`),
followed on the same line by three digit runs separated by single arbitrary
non-newline characters (not necessarily dots) and a non-whitespace tail —
matches at no position; and a returned token is the span of the first
(leftmost) matching position with internal whitespace collapsed to single
spaces and no leading or trailing whitespace. -/
theorem C4_extract_first_match_collapsed (log : String) :
    (get_golang_version_from_build_log log = none ↔
      ∀ i, golangRe.m (log.toList.drop i) some = none)
    ∧ ∀ s, get_golang_version_from_build_log log = some s →
        collapsedOK s.toList = true ∧ s ≠ "" ∧
        ∃ i rest,
          (∀ j, j < i → golangRe.m (log.toList.drop j) some = none) ∧
          golangRe.m (log.toList.drop i) some = some rest ∧
          s.toList = joinWords (wordsOf ((log.toList.drop i).take
            ((log.toList.drop i).length - rest.length))) := by
  constructor
  · unfold get_golang_version_from_build_log
    rw [Option.map_eq_none']
    exact reSearch_none_iff golangRe log.toList
  · intro s hs
    unfold get_golang_version_from_build_log at hs
    rcases Option.map_eq_some'.mp hs with ⟨span, hspan, hmk⟩
    rcases reSearch_some_first hspan with ⟨i, rest, hbef, hm, hspan_eq⟩
    have hsl : s.toList = joinWords (wordsOf span) := by
      rw [← hmk]
      rfl
    rcases golangRe_m_facts hm with ⟨hlen, t, ht⟩
    obtain ⟨n2, hn2⟩ : ∃ n2, (log.toList.drop i).length - rest.length
        = n2 + 1 := by
      refine ⟨(log.toList.drop i).length - rest.length - 1, ?_⟩
      have : (log.toList.drop i).length = ('g' :: t).length := by rw [ht]
      simp only [List.length_cons] at this
      omega
    have hspan_cons : span = 'g' :: t.take n2 := by
      rw [hspan_eq, hn2, ht]
      rfl
    have hwne : wordsOf span ≠ [] := by
      rw [hspan_cons]
      exact wordsOf_cons_ne_nil _ (by decide)
    obtain ⟨w0, ws0, hw0⟩ : ∃ w0 ws0, wordsOf span = w0 :: ws0 := by
      cases hx : wordsOf span with
      | nil => exact absurd hx hwne
      | cons a b => exact ⟨a, b, rfl⟩
    have hjoin_ne : joinWords (wordsOf span) ≠ [] := by
      rw [hw0]
      exact joinWords_ne_nil ws0 (wordsOf_sound span w0 (by rw [hw0]; simp)).1
    refine ⟨?_, ?_, i, rest, hbef, hm, ?_⟩
    · rw [hsl]
      exact collapsedOK_joinWords (wordsOf span) (wordsOf_sound span)
    · intro hcon
      subst hcon
      exact hjoin_ne (by rw [← hsl]; rfl)
    · rw [hsl, hspan_eq]

/-- C4 witness: the spec's own example — `golang-bin-1.16.7-1.module+el8`
inside a log line with irregular internal whitespace — extracted with the
whitespace collapsed to single spaces and no leading or trailing
whitespace. -/
theorem C4_extract_first_match_collapsed_witness :
    collapsedOK (String.toList "golang-bin 1.16.7-1.module+el8") = true
    ∧ ("golang-bin 1.16.7-1.module+el8" : String) ≠ "" := by
  have h := (C4_extract_first_match_collapsed
      "foo golang-bin \t 1.16.7-1.module+el8 bar").2
      "golang-bin 1.16.7-1.module+el8" (by rfl)
  exact ⟨h.1, h.2.1⟩

end Elliott
